import Mathlib

/-!
# Verification of the title normalization and matching engine

Shallow embedding of `update_image_urls.py`: filename-stem hex decoding,
slug generation and the multi-strategy title-to-image lookup.  Python
strings are modelled as `List Char`; Python `dict` (insertion ordered,
first-writer-wins via explicit membership checks) as an association list
in insertion order; the directory scan as a list of entries, with the
`images_dir.is_dir()` test passed in as a boolean.

Character-class helpers (`pyIsSpace`, `pyIsWordChar`, `Char.toLower`)
model the Python semantics over the character repertoire this
development evaluates (ASCII plus the subscript/superscript digits);
Python extends the same classes to further Unicode characters, which no
claim here depends on: every universally quantified theorem uses the
same helper on both sides of the comparison.
-/

namespace ArcaeaImages

/-- Whitespace as recognised by Python `str.strip` / `str.split` / `\s`
(ASCII repertoire). -/
def pyIsSpace (c : Char) : Bool :=
  c = ' ' || c = '\t' || c = '\n' || c = '\r' || c = '\x0b' || c = '\x0c'

/-- Word characters as matched by the regex class `\w`
(alphanumeric or underscore). -/
def pyIsWordChar (c : Char) : Bool :=
  c.isAlphanum || c = '_'

/-- `str.strip()` with no arguments: drop whitespace from both ends. -/
def pyStrip (l : List Char) : List Char :=
  ((l.dropWhile pyIsSpace).reverse.dropWhile pyIsSpace).reverse

/-- `str.strip("_")`: drop the given character from both ends. -/
def pyStripChar (c : Char) (l : List Char) : List Char :=
  ((l.dropWhile (· = c)).reverse.dropWhile (· = c)).reverse

/-- `str.lower()` (ASCII repertoire). -/
def pyLowerStr (l : List Char) : List Char :=
  l.map Char.toLower

/-- The translation table `_SUBSUP_DIGITS`: Unicode subscript and
superscript digits map to ASCII digits, all other characters pass
through. -/
def subSupToAscii : Char → Char
  | '⁰' => '0' | '¹' => '1' | '²' => '2' | '³' => '3' | '⁴' => '4'
  | '⁵' => '5' | '⁶' => '6' | '⁷' => '7' | '⁸' => '8' | '⁹' => '9'
  | '₀' => '0' | '₁' => '1' | '₂' => '2' | '₃' => '3' | '₄' => '4'
  | '₅' => '5' | '₆' => '6' | '₇' => '7' | '₈' => '8' | '₉' => '9'
  | c => c

/-- `_normalize_digits`: apply the subscript/superscript translation
table to every character. -/
def normalize_digits (l : List Char) : List Char :=
  l.map subSupToAscii

/-- `str.split()` with no arguments: split on whitespace runs,
discarding empty pieces. -/
def pyWords (l : List Char) : List (List Char) :=
  (l.foldr
    (fun c acc =>
      if pyIsSpace c then [] :: acc
      else
        match acc with
        | [] => [[c]]
        | w :: ws => (c :: w) :: ws)
    []).filter (fun w => w ≠ [])

/-- `" ".join(pieces)`. -/
def joinSpace : List (List Char) → List Char
  | [] => []
  | [w] => w
  | w :: ws => w ++ ' ' :: joinSpace ws

/-- `"_".join(pieces)`. -/
def joinUnderscore : List (List Char) → List Char
  | [] => []
  | [p] => p
  | p :: ps => p ++ '_' :: joinUnderscore ps

/-- `s.split("_")` (and in general `str.split(sep)` for a one-character
separator): empty pieces are kept, and the empty string splits to one
empty piece. -/
def pySplit (sep : Char) : List Char → List (List Char)
  | [] => [[]]
  | c :: rest =>
    match pySplit sep rest with
    | [] => [[]]
    | p :: ps => if c = sep then [] :: p :: ps else (c :: p) :: ps

/-- Worker for `collapseWS`: the flag records whether the previous
character was whitespace (so the run's underscore is already emitted). -/
def collapseWSAux : Bool → List Char → List Char
  | _, [] => []
  | inRun, c :: rest =>
    if pyIsSpace c then
      if inRun then collapseWSAux true rest
      else '_' :: collapseWSAux true rest
    else c :: collapseWSAux false rest

/-- Each maximal whitespace run becomes a single underscore:
the effect of the regex substitution `\s+` to `_`. -/
def collapseWS (l : List Char) : List Char :=
  collapseWSAux false l

/-- `slug` from the source: strip, normalize digits, replace every
character outside the class `\w`, whitespace, hyphen by a space,
collapse whitespace runs to underscores, strip underscores, lower. -/
def slug (s : List Char) : List Char :=
  let s1 := normalize_digits (pyStrip s)
  let s2 := s1.map (fun c => if pyIsWordChar c || pyIsSpace c || c = '-' then c else ' ')
  pyLowerStr (pyStripChar '_' (collapseWS s2))

/-! ## UTF-8 codec

`title.encode("utf-8")` and `bytes.decode("utf-8")` modelled over
`List Nat` byte sequences.  The decoder is strict, as CPython's is:
it rejects continuation-byte starts, overlong forms, surrogates and
codepoints above `0x10FFFF`.  (Only acceptance of valid encodings is
used by the proofs; the rejection branches model the `UnicodeDecodeError`
paths.) -/

/-- UTF-8 encoding of one Unicode scalar value. -/
def utf8EncodeChar (n : Nat) : List Nat :=
  if n < 0x80 then [n]
  else if n < 0x800 then [0xC0 + n / 64, 0x80 + n % 64]
  else if n < 0x10000 then
    [0xE0 + n / 4096, 0x80 + n / 64 % 64, 0x80 + n % 64]
  else
    [0xF0 + n / 262144, 0x80 + n / 4096 % 64, 0x80 + n / 64 % 64, 0x80 + n % 64]

/-- `s.encode("utf-8")`. -/
def strToUtf8 (s : List Char) : List Nat :=
  s.foldr (fun c acc => utf8EncodeChar c.toNat ++ acc) []

/-- One step of strict UTF-8 decoding: the first scalar value and the
remaining bytes, or `none` on a malformed prefix (continuation-byte
start, truncation, overlong form, surrogate, or value above
`0x10FFFF`). -/
def utf8DecodeOne : List Nat → Option (Char × List Nat)
  | [] => none
  | b0 :: rest =>
    if b0 < 0x80 then some (Char.ofNat b0, rest)
    else if b0 < 0xC2 then none
    else if b0 < 0xE0 then
      match rest with
      | b1 :: r =>
        if 0x80 ≤ b1 ∧ b1 < 0xC0 then
          some (Char.ofNat ((b0 - 0xC0) * 64 + (b1 - 0x80)), r)
        else none
      | _ => none
    else if b0 < 0xF0 then
      match rest with
      | b1 :: b2 :: r =>
        if (if b0 = 0xE0 then 0xA0 else 0x80) ≤ b1 ∧ b1 < (if b0 = 0xED then 0xA0 else 0xC0) ∧
            0x80 ≤ b2 ∧ b2 < 0xC0 then
          some (Char.ofNat ((b0 - 0xE0) * 4096 + (b1 - 0x80) * 64 + (b2 - 0x80)), r)
        else none
      | _ => none
    else if b0 < 0xF5 then
      match rest with
      | b1 :: b2 :: b3 :: r =>
        if (if b0 = 0xF0 then 0x90 else 0x80) ≤ b1 ∧ b1 < (if b0 = 0xF4 then 0x90 else 0xC0) ∧
            0x80 ≤ b2 ∧ b2 < 0xC0 ∧ 0x80 ≤ b3 ∧ b3 < 0xC0 then
          some (Char.ofNat
            ((b0 - 0xF0) * 262144 + (b1 - 0x80) * 4096 + (b2 - 0x80) * 64 + (b3 - 0x80)), r)
        else none
      | _ => none
    else none

/-- Fuel-indexed decoding loop: one unit of fuel per decoded character.
Since every step consumes at least one byte, fuel equal to the byte
count (as supplied by `utf8Decode`) can never run out. -/
def utf8DecodeAux : Nat → List Nat → Option (List Char)
  | _, [] => some []
  | 0, _ :: _ => none
  | fuel + 1, b0 :: rest =>
    match utf8DecodeOne (b0 :: rest) with
    | none => none
    | some (c, r) => (utf8DecodeAux fuel r).map (fun cs => c :: cs)

/-- Strict UTF-8 decoding, `bytes.decode("utf-8")`: `none` is the
`UnicodeDecodeError` case. -/
def utf8Decode (l : List Nat) : Option (List Char) :=
  utf8DecodeAux l.length l

/-! ## Filename stem encoding and decoding -/

/-- One uppercase hexadecimal digit, for `f"\x7bb:02X\x7d"`. -/
def hexDigitChar (n : Nat) : Char :=
  if n < 10 then Char.ofNat (48 + n) else Char.ofNat (55 + n)

/-- `f"\x7bb:02X\x7d"` for a byte: two uppercase hex digits. -/
def byteToHex (b : Nat) : List Char :=
  [hexDigitChar (b / 16), hexDigitChar (b % 16)]

/-- `title_to_encoded_stem`: empty title gives the empty stem, otherwise
a leading underscore followed by the underscore-joined hex pairs of the
UTF-8 bytes. -/
def title_to_encoded_stem (title : List Char) : List Char :=
  if title = [] then []
  else '_' :: joinUnderscore ((strToUtf8 title).map byteToHex)

/-- Membership in the literal `"0123456789ABCDEFabcdef"`. -/
def isHexDigit (c : Char) : Bool :=
  "0123456789ABCDEFabcdef".toList.contains c

/-- The filter condition on a split piece: exactly two characters, both
hexadecimal digits. -/
def validPiece (p : List Char) : Bool :=
  p.length = 2 && p.all isHexDigit

/-- `int(p, 16)` on a piece that passed `validPiece` (the source only
applies it to such pieces; other shapes are unreachable there). -/
def hexVal (c : Char) : Nat :=
  if c.toNat ≤ 57 then c.toNat - 48
  else if c.toNat ≤ 70 then c.toNat - 55
  else c.toNat - 87

def pieceToByte : List Char → Nat
  | [d1, d0] => 16 * hexVal d1 + hexVal d0
  | _ => 0

/-- `stem_to_title`: strip one optional leading underscore, split on
underscores, keep only the pieces that are exactly two hex digits, parse
them as bytes and UTF-8-decode; `none` when the stem is empty, no piece
survives the filter, or UTF-8 decoding fails. -/
def stem_to_title (stem : List Char) : Option (List Char) :=
  if stem = [] then none
  else
    let s := if stem.head? = some '_' then stem.tail else stem
    let parts := pySplit '_' s
    let b := (parts.filter validPiece).map pieceToByte
    if b = [] then none else utf8Decode b

/-! ## Lookup table construction (`build_title_to_file_map`) -/

/-- One entry of the directory listing: its name and whether it is a
subdirectory (`path.is_dir()`). -/
structure DirEntry where
  name : List Char
  isDir : Bool
deriving DecidableEq

/-- Keys are normalized title strings; values are the file names the
`Path` objects stand for. -/
abbrev Table := List (List Char × List Char)

/-- Python `dict` lookup, on an insertion-ordered association list. -/
def tblLookup (t : Table) (k : List Char) : Option (List Char) :=
  match t with
  | [] => none
  | (k1, v) :: rest => if k1 = k then some v else tblLookup rest k

/-- The idiom `if key not in d: d[key] = v` — insert only when the key
is absent, appending in insertion order. -/
def tblInsertNew (t : Table) (k : List Char) (v : List Char) : Table :=
  if (tblLookup t k).isSome then t else t ++ [(k, v)]

/-- Index of the last `'.'` in a name, `name.rfind(".")`. -/
def dotIdx (name : List Char) : Option Nat :=
  match name.reverse.findIdx? (fun c => c = '.') with
  | none => none
  | some j => some (name.length - 1 - j)

/-- `PurePath.suffix`: the extension with its dot, when the last dot is
neither the first nor the last character; otherwise empty. -/
def pySuffix (name : List Char) : List Char :=
  match dotIdx name with
  | some i => if 0 < i ∧ i < name.length - 1 then name.drop i else []
  | none => []

/-- `PurePath.stem`: the name up to the last dot under the same
condition; otherwise the whole name. -/
def pyStem (name : List Char) : List Char :=
  match dotIdx name with
  | some i => if 0 < i ∧ i < name.length - 1 then name.take i else name
  | none => name

/-- The allowed image extensions. -/
def allowedExts : List (List Char) :=
  [".jpg".toList, ".jpeg".toList, ".png".toList, ".webp".toList, ".gif".toList]

/-- The compact key of the non-decoded branch:
`normal_title.lower().replace(" ", "").replace("_", "")`. -/
def compactOf (normalTitle : List Char) : List Char :=
  (pyLowerStr normalTitle).filter (fun c => c ≠ ' ' ∧ c ≠ '_')

/-- The loop body of `build_title_to_file_map` for one directory entry:
skip subdirectories and disallowed extensions; for a stem that decodes,
register the stripped lowered title and its whitespace-collapsed form;
otherwise register the slug, the lowered underscores-to-spaces title,
its compact key, and the lowered raw stem. -/
def processEntry (t : Table) (e : DirEntry) : Table :=
  if e.isDir then t
  else
    let stem := pyStem e.name
    let ext := pyLowerStr (pySuffix e.name)
    if ext ∈ allowedExts then
      match stem_to_title stem with
      | some decoded =>
        let key := pyLowerStr (pyStrip decoded)
        let t1 := if key ≠ [] then tblInsertNew t key e.name else t
        let key2 := pyLowerStr (joinSpace (pyWords decoded))
        if key2 ≠ [] then tblInsertNew t1 key2 e.name else t1
      | none =>
        let normalTitle := pyStrip (stem.map (fun c => if c = '_' then ' ' else c))
        let slugNormal := slug normalTitle
        let t1 := if slugNormal ≠ [] then tblInsertNew t slugNormal e.name else t
        let keyLower := pyLowerStr normalTitle
        let t2 := if keyLower ≠ [] then tblInsertNew t1 keyLower e.name else t1
        let keyCompact := compactOf normalTitle
        let t3 := if keyCompact ≠ [] then tblInsertNew t2 keyCompact e.name else t2
        tblInsertNew t3 (pyLowerStr stem) e.name
    else t

/-- `build_title_to_file_map`: empty table when `images_dir.is_dir()`
is false, otherwise one pass over the directory entries. -/
def build_title_to_file_map (dirExists : Bool) (entries : List DirEntry) : Table :=
  if dirExists then entries.foldl processEntry [] else []

/-- Whether the entry passes the two skip tests of the loop. -/
def entryProcessed (e : DirEntry) : Bool :=
  !e.isDir && decide (pyLowerStr (pySuffix e.name) ∈ allowedExts)

/-- The keys a processed entry attempts to register, in registration
order, with the non-emptiness guards of the source applied. -/
def entryKeys (e : DirEntry) : List (List Char) :=
  let stem := pyStem e.name
  match stem_to_title stem with
  | some decoded =>
    let key := pyLowerStr (pyStrip decoded)
    let key2 := pyLowerStr (joinSpace (pyWords decoded))
    (if key ≠ [] then [key] else []) ++ (if key2 ≠ [] then [key2] else [])
  | none =>
    let normalTitle := pyStrip (stem.map (fun c => if c = '_' then ' ' else c))
    let slugNormal := slug normalTitle
    let keyLower := pyLowerStr normalTitle
    let keyCompact := compactOf normalTitle
    (if slugNormal ≠ [] then [slugNormal] else []) ++
      (if keyLower ≠ [] then [keyLower] else []) ++
      (if keyCompact ≠ [] then [keyCompact] else []) ++ [pyLowerStr stem]

/-! ## Title resolution (`find_image_for_title`)

The source returns `_rel(path, images_dir)`, a purely cosmetic
re-rendering of the matched path relative to the project root; the
embedding returns the matched file itself. -/

/-- Strategy 1 key: `_normalize_digits(title.strip()).lower()`. -/
def exactKey (title : List Char) : List Char :=
  pyLowerStr (normalize_digits (pyStrip title))

/-- Strategy 2 key: `slug(title.strip())`. -/
def slugKey (title : List Char) : List Char :=
  slug (pyStrip title)

/-- Strategy 3 key:
`_normalize_digits(" ".join(title.strip().split()).lower())`. -/
def collapsedKey (title : List Char) : List Char :=
  normalize_digits (pyLowerStr (joinSpace (pyWords (pyStrip title))))

/-- Strategy 4, the fallback loop over the table in iteration order:
first key that is a prefix of the slug or has the slug as a prefix,
guarded by the slug being non-empty (`if s and ...`). -/
def fuzzyScan (s : List Char) (t : Table) : Option (List Char) :=
  match t with
  | [] => none
  | (k, p) :: rest =>
    if s ≠ [] ∧ (s.isPrefixOf k || k.isPrefixOf s) then some p
    else fuzzyScan s rest

/-- `find_image_for_title`: empty/whitespace-only titles never match;
otherwise the four strategies are tried in order, first hit wins. -/
def find_image_for_title (title : List Char) (t : Table) : Option (List Char) :=
  if pyStrip title = [] then none
  else
    match tblLookup t (exactKey title) with
    | some p => some p
    | none =>
      match tblLookup t (slugKey title) with
      | some p => some p
      | none =>
        match tblLookup t (collapsedKey title) with
        | some p => some p
        | none => fuzzyScan (slugKey title) t

/-- Compact key as the spec defines the primitive: lower-case with
digit normalization, then remove all space and underscore characters.
(Spec-transcribed definition, for comparison with the source.) -/
def specCompactKey (s : List Char) : List Char :=
  (pyLowerStr (normalize_digits s)).filter (fun c => ¬ (pyIsSpace c ∨ c = '_'))

/-- Character replacement of the spec's Slug primitive: every character
that is not alphanumeric, underscore, or whitespace becomes a single
space.  (Spec-transcribed definition, for comparison with the source.) -/
def specReplaceChar (c : Char) : Char :=
  if c.isAlphanum || c = '_' || pyIsSpace c then c else ' '

/-- The spec's Slug primitive: trim surrounding whitespace, apply digit
normalization, replace every character that is not alphanumeric,
underscore, or whitespace with a single space, collapse consecutive
whitespace into a single underscore, trim leading/trailing underscores,
and lower-case.  (Spec-transcribed definition.) -/
def specSlug (s : List Char) : List Char :=
  pyLowerStr (pyStripChar '_' (collapseWS ((normalize_digits (pyStrip s)).map specReplaceChar)))

/-- `specReplaceChar` amended to also let `'-'` pass through. -/
def specReplaceCharKeepHyphen (c : Char) : Char :=
  if c.isAlphanum || c = '_' || pyIsSpace c || c = '-' then c else ' '

/-- The spec's Slug primitive amended so that `'-'` is preserved rather
than replaced by a space. -/
def specSlugKeepHyphen (s : List Char) : List Char :=
  pyLowerStr (pyStripChar '_'
    (collapseWS ((normalize_digits (pyStrip s)).map specReplaceCharKeepHyphen)))

/-- Whether the entry's stem decodes (under `stem_to_title`) to a title
that is whitespace-only, so that both registration keys of the decoded
branch are empty. -/
def decodesWhitespaceOnly (e : DirEntry) : Bool :=
  match stem_to_title (pyStem e.name) with
  | some d => decide (pyStrip d = [])
  | none => false

/-- Register a list of candidate keys for one file, in order, each under
the first-writer-wins discipline. -/
def registerKeys (t : Table) (ks : List (List Char)) (v : List Char) : Table :=
  ks.foldl (fun a k => tblInsertNew a k v) t

/-- Left-biased choice on optional lookup results. -/
def optOr (a b : Option (List Char)) : Option (List Char) :=
  match a with
  | some v => some v
  | none => b

example : stem_to_title "INCARNATOR_00".toList = some ['\x00'] := by decide
example : stem_to_title "Fracture_Ray".toList = none := by decide
example : stem_to_title (title_to_encoded_stem "A".toList) = some "A".toList := by decide
example : slug "a-b".toList = "a-b".toList := by decide
example : slug "!!!".toList = [] := by decide
example :
    build_title_to_file_map true [⟨"INCARNATOR_00.jpg".toList, false⟩] =
      [(['\x00'], "INCARNATOR_00.jpg".toList)] := by decide
example :
    find_image_for_title "INCARNATOR₀₀".toList
      (build_title_to_file_map true [⟨"INCARNATOR_00.jpg".toList, false⟩]) = none := by decide
example : build_title_to_file_map true [⟨"20.jpg".toList, false⟩] = [] := by decide
example :
    find_image_for_title "Fracture Ray".toList
      (build_title_to_file_map true [⟨"Fracture_Ray.jpg".toList, false⟩]) =
      some "Fracture_Ray.jpg".toList := by decide

/-! ## Table lemmas -/

theorem optOr_none (a : Option (List Char)) : optOr a none = a := by
  cases a <;> rfl

theorem optOr_some_left (a : List Char) (b : Option (List Char)) :
    optOr (some a) b = some a := rfl

theorem tblLookup_append (t1 t2 : Table) (k : List Char) :
    tblLookup (t1 ++ t2) k = optOr (tblLookup t1 k) (tblLookup t2 k) := by
  induction t1 with
  | nil => rfl
  | cons kv rest ih =>
    obtain ⟨k1, v⟩ := kv
    by_cases h : k1 = k
    · simp [tblLookup, h, optOr]
    · simp [tblLookup, h, ih]

theorem tblInsertNew_preserves (t : Table) (k k1 v w : List Char)
    (h : tblLookup t k = some w) : tblLookup (tblInsertNew t k1 v) k = some w := by
  unfold tblInsertNew
  split
  · exact h
  · rw [tblLookup_append, h]; rfl

theorem registerKeys_preserves (ks : List (List Char)) (t : Table) (k v w : List Char)
    (h : tblLookup t k = some w) : tblLookup (registerKeys t ks v) k = some w := by
  induction ks generalizing t with
  | nil => exact h
  | cons k1 ks ih => exact ih _ (tblInsertNew_preserves t k k1 v w h)

theorem registerKeys_cons (t : Table) (k1 v : List Char) (ks : List (List Char)) :
    registerKeys t (k1 :: ks) v = registerKeys (tblInsertNew t k1 v) ks v := rfl

theorem tblInsertNew_lookup_none (t : Table) (k k1 v : List Char)
    (h : tblLookup t k = none) :
    tblLookup (tblInsertNew t k1 v) k = if k = k1 then some v else none := by
  unfold tblInsertNew
  split
  · rename_i hp
    rw [h]
    by_cases he : k = k1
    · subst he
      rw [h] at hp
      simp at hp
    · rw [if_neg he]
  · rw [tblLookup_append, h]
    by_cases he : k = k1
    · subst he
      simp [tblLookup, optOr]
    · simp [tblLookup, optOr, Ne.symm he, he]

theorem registerKeys_lookup_none (ks : List (List Char)) (t : Table) (k v : List Char)
    (h : tblLookup t k = none) :
    tblLookup (registerKeys t ks v) k = if k ∈ ks then some v else none := by
  induction ks generalizing t with
  | nil => simpa [registerKeys] using h
  | cons k1 ks ih =>
    rw [registerKeys_cons]
    by_cases he : k = k1
    · subst he
      have h1 : tblLookup (tblInsertNew t k v) k = some v := by
        rw [tblInsertNew_lookup_none t k k v h, if_pos rfl]
      rw [registerKeys_preserves ks _ k v v h1, if_pos (List.mem_cons_self k ks)]
    · have h1 : tblLookup (tblInsertNew t k1 v) k = none := by
        rw [tblInsertNew_lookup_none t k k1 v h, if_neg he]
      rw [ih (tblInsertNew t k1 v) h1]
      simp [List.mem_cons, he]

theorem registerKeys_guard (t : Table) (g : Prop) [Decidable g] (k v : List Char)
    (ks : List (List Char)) :
    registerKeys t ((if g then [k] else []) ++ ks) v =
      registerKeys (if g then tblInsertNew t k v else t) ks v := by
  by_cases h : g <;> simp [registerKeys, h]

theorem processEntry_eq (t : Table) (e : DirEntry) :
    processEntry t e =
      if entryProcessed e then registerKeys t (entryKeys e) e.name else t := by
  by_cases hd : e.isDir = true
  · have hp : entryProcessed e = false := by simp [entryProcessed, hd]
    rw [hp]
    simp only [Bool.false_eq_true, if_false]
    unfold processEntry
    rw [if_pos hd]
  · by_cases hx : pyLowerStr (pySuffix e.name) ∈ allowedExts
    · have hp : entryProcessed e = true := by
        simp [entryProcessed, hd, hx]
      rw [hp, if_pos rfl]
      unfold processEntry entryKeys
      rw [if_neg hd, if_pos hx]
      cases hs : stem_to_title (pyStem e.name) with
      | some d =>
        simp only [hs]
        rw [registerKeys_guard]
        by_cases h2 : pyLowerStr (joinSpace (pyWords d)) ≠ [] <;>
          simp [h2, registerKeys]
      | none =>
        simp only [hs]
        rw [List.append_assoc, List.append_assoc,
          registerKeys_guard, registerKeys_guard, registerKeys_guard]
        rfl
    · have hp : entryProcessed e = false := by
        simp [entryProcessed, hd, hx]
      rw [hp]
      simp only [Bool.false_eq_true, if_false]
      unfold processEntry
      rw [if_neg hd, if_neg hx]

theorem foldl_processEntry_lookup (entries : List DirEntry) (t : Table) (k : List Char) :
    tblLookup (entries.foldl processEntry t) k =
      optOr (tblLookup t k)
        ((entries.find? (fun e => entryProcessed e && decide (k ∈ entryKeys e))).map
          DirEntry.name) := by
  induction entries generalizing t with
  | nil => simp [optOr_none]
  | cons e es ih =>
    simp only [List.foldl_cons, ih (processEntry t e)]
    cases hp : entryProcessed e with
    | false =>
      have hpe : processEntry t e = t := by
        rw [processEntry_eq, hp]
        simp
      have hfind :
          (e :: es).find? (fun e => entryProcessed e && decide (k ∈ entryKeys e)) =
            es.find? (fun e => entryProcessed e && decide (k ∈ entryKeys e)) := by
        apply List.find?_cons_of_neg
        simp [hp]
      rw [hpe, hfind]
    | true =>
      have hpe : processEntry t e = registerKeys t (entryKeys e) e.name := by
        rw [processEntry_eq, hp, if_pos rfl]
      rw [hpe]
      by_cases hk : k ∈ entryKeys e
      · have hfind :
            (e :: es).find? (fun e => entryProcessed e && decide (k ∈ entryKeys e)) =
              some e := by
          apply List.find?_cons_of_pos
          simp [hp, hk]
        rw [hfind]
        cases hl : tblLookup t k with
        | some w =>
          rw [registerKeys_preserves (entryKeys e) t k e.name w hl]
          rfl
        | none =>
          rw [registerKeys_lookup_none (entryKeys e) t k e.name hl, if_pos hk]
          rfl
      · have hfind :
            (e :: es).find? (fun e => entryProcessed e && decide (k ∈ entryKeys e)) =
              es.find? (fun e => entryProcessed e && decide (k ∈ entryKeys e)) := by
          apply List.find?_cons_of_neg
          simp [hk]
        rw [hfind]
        cases hl : tblLookup t k with
        | some w =>
          rw [registerKeys_preserves (entryKeys e) t k e.name w hl]
        | none =>
          rw [registerKeys_lookup_none (entryKeys e) t k e.name hl, if_neg hk]

/-! ## UTF-8 and hex round-trip lemmas -/

theorem char_toNat_valid (c : Char) :
    c.toNat < 0xD800 ∨ (0xDFFF < c.toNat ∧ c.toNat < 0x110000) := c.valid

theorem utf8EncodeChar_ne_nil (n : Nat) : utf8EncodeChar n ≠ [] := by
  unfold utf8EncodeChar
  repeat' split
  all_goals simp

theorem utf8EncodeChar_lt_256 (n : Nat) (hn : n < 0x110000) :
    ∀ b ∈ utf8EncodeChar n, b < 256 := by
  intro b hb
  unfold utf8EncodeChar at hb
  split at hb
  · simp only [List.mem_singleton] at hb
    omega
  · split at hb
    · simp only [List.mem_cons, List.not_mem_nil, or_false] at hb
      rcases hb with h | h <;> omega
    · split at hb
      · simp only [List.mem_cons, List.not_mem_nil, or_false] at hb
        rcases hb with h | h | h <;> omega
      · simp only [List.mem_cons, List.not_mem_nil, or_false] at hb
        rcases hb with h | h | h | h <;> omega

theorem hexDigitChar_spec (n : Nat) (h : n < 16) :
    isHexDigit (hexDigitChar n) = true ∧ hexVal (hexDigitChar n) = n ∧
      hexDigitChar n ≠ '_' := by
  interval_cases n <;> decide

theorem byteToHex_spec (b : Nat) (h : b < 256) :
    validPiece (byteToHex b) = true ∧ pieceToByte (byteToHex b) = b ∧
      ∀ c ∈ byteToHex b, c ≠ '_' := by
  have h1 := hexDigitChar_spec (b / 16) (by omega)
  have h2 := hexDigitChar_spec (b % 16) (by omega)
  refine ⟨?_, ?_, ?_⟩
  · unfold validPiece byteToHex
    simp [h1.1, h2.1]
  · show pieceToByte [hexDigitChar (b / 16), hexDigitChar (b % 16)] = b
    rw [show pieceToByte [hexDigitChar (b / 16), hexDigitChar (b % 16)] =
        16 * hexVal (hexDigitChar (b / 16)) + hexVal (hexDigitChar (b % 16)) from rfl,
      h1.2.1, h2.2.1]
    omega
  · intro c hc
    unfold byteToHex at hc
    simp only [List.mem_cons, List.not_mem_nil, or_false] at hc
    rcases hc with h | h
    · rw [h]
      exact h1.2.2
    · rw [h]
      exact h2.2.2

theorem pySplit_ne_nil (sep : Char) (l : List Char) : pySplit sep l ≠ [] := by
  cases l with
  | nil => simp [pySplit]
  | cons c rest =>
    cases h : pySplit sep rest with
    | nil => simp [pySplit, h]
    | cons p ps =>
      simp only [pySplit, h]
      split <;> simp

theorem pySplit_nosep (sep : Char) (p : List Char) (h : ∀ c ∈ p, ¬(c = sep)) :
    pySplit sep p = [p] := by
  induction p with
  | nil => rfl
  | cons c p ih =>
    have hc : ¬(c = sep) := h c (List.mem_cons_self c p)
    have hp : pySplit sep p = [p] := ih (fun x hx => h x (List.mem_cons_of_mem c hx))
    simp only [pySplit, hp]
    rw [if_neg hc]

theorem pySplit_piece_append (sep : Char) (p r : List Char)
    (h : ∀ c ∈ p, ¬(c = sep)) :
    pySplit sep (p ++ sep :: r) = p :: pySplit sep r := by
  induction p with
  | nil =>
    simp only [List.nil_append]
    cases hr : pySplit sep r with
    | nil => exact absurd hr (pySplit_ne_nil sep r)
    | cons q qs =>
      simp only [pySplit, hr]
      simp
  | cons c p ih =>
    have hc : ¬(c = sep) := h c (List.mem_cons_self c p)
    have hp := ih (fun x hx => h x (List.mem_cons_of_mem c hx))
    rw [List.cons_append, pySplit.eq_def]
    dsimp only
    rw [hp]
    dsimp only
    rw [if_neg hc]

theorem pySplit_joinUnderscore (ps : List (List Char)) (hne : ps ≠ [])
    (h : ∀ p ∈ ps, ∀ c ∈ p, ¬(c = '_')) :
    pySplit '_' (joinUnderscore ps) = ps := by
  induction ps with
  | nil => exact absurd rfl hne
  | cons p ps ih =>
    cases ps with
    | nil => exact pySplit_nosep '_' p (h p (List.mem_cons_self p []))
    | cons q ps2 =>
      have hj : joinUnderscore (p :: q :: ps2) = p ++ '_' :: joinUnderscore (q :: ps2) := rfl
      rw [hj, pySplit_piece_append '_' p _ (h p (List.mem_cons_self p _)),
        ih (by simp) (fun x hx => h x (List.mem_cons_of_mem p hx))]

theorem utf8DecodeOne_encodeChar (n : Nat) (r : List Nat)
    (hv : n < 0xD800 ∨ (0xDFFF < n ∧ n < 0x110000)) :
    utf8DecodeOne (utf8EncodeChar n ++ r) = some (Char.ofNat n, r) := by
  have hsur : n < 0xD800 ∨ 0xDFFF < n := by
    rcases hv with h | h
    · exact Or.inl h
    · exact Or.inr h.1
  have hmax : n < 0x110000 := by
    rcases hv with h | h <;> omega
  by_cases h1 : n < 0x80
  · have he : utf8EncodeChar n = [n] := by
      unfold utf8EncodeChar
      rw [if_pos h1]
    rw [he]
    simp only [List.cons_append, List.nil_append]
    rw [utf8DecodeOne.eq_def]
    dsimp only
    rw [if_pos h1]
  · by_cases h2 : n < 0x800
    · have he : utf8EncodeChar n = [0xC0 + n / 64, 0x80 + n % 64] := by
        unfold utf8EncodeChar
        rw [if_neg h1, if_pos h2]
      have harith : (0xC0 + n / 64 - 0xC0) * 64 + (0x80 + n % 64 - 0x80) = n := by
        omega
      rw [he]
      simp only [List.cons_append, List.nil_append]
      rw [utf8DecodeOne.eq_def]
      dsimp only
      rw [if_neg (show ¬(0xC0 + n / 64 < 0x80) by omega),
        if_neg (show ¬(0xC0 + n / 64 < 0xC2) by omega),
        if_pos (show 0xC0 + n / 64 < 0xE0 by omega),
        if_pos (show 0x80 ≤ 0x80 + n % 64 ∧ 0x80 + n % 64 < 0xC0 by omega),
        harith]
    · by_cases h3 : n < 0x10000
      · have he : utf8EncodeChar n =
            [0xE0 + n / 4096, 0x80 + n / 64 % 64, 0x80 + n % 64] := by
          unfold utf8EncodeChar
          rw [if_neg h1, if_neg h2, if_pos h3]
        have hc1 : (if 0xE0 + n / 4096 = 0xE0 then 0xA0 else 0x80) ≤
            0x80 + n / 64 % 64 := by
          split
          · rename_i hE
            omega
          · omega
        have hc2 : 0x80 + n / 64 % 64 <
            (if 0xE0 + n / 4096 = 0xED then 0xA0 else 0xC0) := by
          split
          · rename_i hE
            rcases hsur with h | h <;> omega
          · omega
        have harith : (0xE0 + n / 4096 - 0xE0) * 4096 + (0x80 + n / 64 % 64 - 0x80) * 64 +
            (0x80 + n % 64 - 0x80) = n := by
          omega
        rw [he]
        simp only [List.cons_append, List.nil_append]
        rw [utf8DecodeOne.eq_def]
        dsimp only
        rw [if_neg (show ¬(0xE0 + n / 4096 < 0x80) by omega),
          if_neg (show ¬(0xE0 + n / 4096 < 0xC2) by omega),
          if_neg (show ¬(0xE0 + n / 4096 < 0xE0) by omega),
          if_pos (show 0xE0 + n / 4096 < 0xF0 by omega),
          if_pos ⟨hc1, hc2, by omega, by omega⟩,
          harith]
      · have he : utf8EncodeChar n =
            [0xF0 + n / 262144, 0x80 + n / 4096 % 64, 0x80 + n / 64 % 64,
              0x80 + n % 64] := by
          unfold utf8EncodeChar
          rw [if_neg h1, if_neg h2, if_neg h3]
        have hc1 : (if 0xF0 + n / 262144 = 0xF0 then 0x90 else 0x80) ≤
            0x80 + n / 4096 % 64 := by
          split
          · rename_i hE
            omega
          · omega
        have hc2 : 0x80 + n / 4096 % 64 <
            (if 0xF0 + n / 262144 = 0xF4 then 0x90 else 0xC0) := by
          split
          · rename_i hE
            omega
          · omega
        have harith : (0xF0 + n / 262144 - 0xF0) * 262144 +
            (0x80 + n / 4096 % 64 - 0x80) * 4096 + (0x80 + n / 64 % 64 - 0x80) * 64 +
            (0x80 + n % 64 - 0x80) = n := by
          omega
        rw [he]
        simp only [List.cons_append, List.nil_append]
        rw [utf8DecodeOne.eq_def]
        dsimp only
        rw [if_neg (show ¬(0xF0 + n / 262144 < 0x80) by omega),
          if_neg (show ¬(0xF0 + n / 262144 < 0xC2) by omega),
          if_neg (show ¬(0xF0 + n / 262144 < 0xE0) by omega),
          if_neg (show ¬(0xF0 + n / 262144 < 0xF0) by omega),
          if_pos (show 0xF0 + n / 262144 < 0xF5 by omega),
          if_pos ⟨hc1, hc2, by omega, by omega, by omega, by omega⟩,
          harith]

theorem utf8DecodeAux_encode (fuel : Nat) (s : List Char) (hf : s.length <= fuel) :
    utf8DecodeAux fuel (strToUtf8 s) = some s := by
  induction fuel generalizing s with
  | zero =>
    cases s with
    | nil => rfl
    | cons c cs => simp at hf
  | succ fuel ih =>
    cases s with
    | nil => rfl
    | cons c cs =>
      have hs : strToUtf8 (c :: cs) = utf8EncodeChar c.toNat ++ strToUtf8 cs := rfl
      have hone : utf8DecodeOne (utf8EncodeChar c.toNat ++ strToUtf8 cs) =
          some (Char.ofNat c.toNat, strToUtf8 cs) :=
        utf8DecodeOne_encodeChar c.toNat (strToUtf8 cs) (char_toNat_valid c)
      cases he : utf8EncodeChar c.toNat with
      | nil => exact absurd he (utf8EncodeChar_ne_nil c.toNat)
      | cons b0 bs =>
        rw [he, List.cons_append] at hone
        rw [hs, he, List.cons_append]
        show (match utf8DecodeOne (b0 :: (bs ++ strToUtf8 cs)) with
          | none => none
          | some (d, r) => (utf8DecodeAux fuel r).map (fun l => d :: l)) = some (c :: cs)
        rw [hone]
        have hcs : cs.length <= fuel := by
          simp only [List.length_cons] at hf
          omega
        dsimp only
        rw [ih cs hcs]
        simp [Char.ofNat_toNat]

theorem strToUtf8_length_ge (s : List Char) : s.length <= (strToUtf8 s).length := by
  induction s with
  | nil => simp [strToUtf8]
  | cons c cs ih =>
    have hs : strToUtf8 (c :: cs) = utf8EncodeChar c.toNat ++ strToUtf8 cs := rfl
    rw [hs, List.length_append, List.length_cons]
    have h1 : 1 <= (utf8EncodeChar c.toNat).length := by
      cases he : utf8EncodeChar c.toNat with
      | nil => exact absurd he (utf8EncodeChar_ne_nil c.toNat)
      | cons b bs => simp
    omega

theorem utf8Decode_strToUtf8 (s : List Char) :
    utf8Decode (strToUtf8 s) = some s :=
  utf8DecodeAux_encode (strToUtf8 s).length s (strToUtf8_length_ge s)

theorem strToUtf8_lt_256 (s : List Char) : ∀ b ∈ strToUtf8 s, b < 256 := by
  induction s with
  | nil =>
    intro b hb
    exact absurd hb (List.not_mem_nil b)
  | cons c cs ih =>
    intro b hb
    have hs : strToUtf8 (c :: cs) = utf8EncodeChar c.toNat ++ strToUtf8 cs := rfl
    rw [hs] at hb
    rcases List.mem_append.mp hb with h | h
    · have hlt : c.toNat < 0x110000 := by
        rcases char_toNat_valid c with hh | hh <;> omega
      exact utf8EncodeChar_lt_256 c.toNat hlt b h
    · exact ih b h

theorem strToUtf8_ne_nil (s : List Char) (h : s ≠ []) : strToUtf8 s ≠ [] := by
  cases s with
  | nil => exact absurd rfl h
  | cons c cs =>
    have hs : strToUtf8 (c :: cs) = utf8EncodeChar c.toNat ++ strToUtf8 cs := rfl
    rw [hs]
    intro hh
    rcases List.append_eq_nil.mp hh with ⟨h1, _⟩
    exact utf8EncodeChar_ne_nil c.toNat h1

theorem hexPieces_spec (l : List Nat) (h : ∀ b ∈ l, b < 256) :
    ((l.map byteToHex).filter validPiece) = l.map byteToHex ∧
      ((l.map byteToHex).map pieceToByte) = l ∧
      ∀ p ∈ l.map byteToHex, ∀ c ∈ p, ¬(c = '_') := by
  induction l with
  | nil =>
    refine ⟨rfl, rfl, ?_⟩
    intro p hp
    exact absurd hp (List.not_mem_nil p)
  | cons b l ih =>
    have hb := byteToHex_spec b (h b (List.mem_cons_self b l))
    obtain ⟨ih1, ih2, ih3⟩ := ih (fun x hx => h x (List.mem_cons_of_mem b hx))
    refine ⟨?_, ?_, ?_⟩
    · simp [List.filter_cons, hb.1, ih1]
    · simp [hb.2.1, ih2]
    · intro p hp
      rcases List.mem_cons.mp hp with he | hm
      · intro c hc
        rw [he] at hc
        exact hb.2.2 c hc
      · exact ih3 p hm

/-! ## Structural facts about registered keys -/

theorem mem_guard_singleton (k x : List Char) (g : Prop) [Decidable g]
    (h : k ∈ (if g then [x] else [])) : k = x ∧ g := by
  split at h
  · rename_i hg
    exact ⟨List.mem_singleton.mp h, hg⟩
  · exact absurd h (List.not_mem_nil k)

theorem stem_ne_nil (name : List Char) (h : pyLowerStr (pySuffix name) ∈ allowedExts) :
    pyStem name ≠ [] := by
  have hsuf : pySuffix name ≠ [] := by
    intro he
    rw [he] at h
    revert h
    decide
  unfold pySuffix at hsuf
  unfold pyStem
  cases hd : dotIdx name with
  | none =>
    simp only [hd] at hsuf
    exact absurd rfl hsuf
  | some i =>
    simp only [hd] at hsuf ⊢
    by_cases hc : 0 < i ∧ i < name.length - 1
    · rw [if_pos hc]
      intro hn
      have hlen := congrArg List.length hn
      rw [List.length_take] at hlen
      simp only [List.length_nil] at hlen
      omega
    · rw [if_neg hc] at hsuf
      exact absurd rfl hsuf

theorem entryKeys_key_ne_nil (e : DirEntry) (hp : entryProcessed e = true)
    (k : List Char) (hk : k ∈ entryKeys e) : k ≠ [] := by
  have hx : pyLowerStr (pySuffix e.name) ∈ allowedExts := by
    unfold entryProcessed at hp
    simp only [Bool.and_eq_true, decide_eq_true_eq] at hp
    exact hp.2
  have hstem : pyStem e.name ≠ [] := stem_ne_nil e.name hx
  unfold entryKeys at hk
  cases hs : stem_to_title (pyStem e.name) with
  | some d =>
    simp only [hs] at hk
    rcases List.mem_append.mp hk with h1 | h1
    all_goals
      obtain ⟨hk1, hg⟩ := mem_guard_singleton _ _ _ h1
      rw [hk1]
      exact hg
  | none =>
    simp only [hs] at hk
    rcases List.mem_append.mp hk with h1 | hlast
    · rcases List.mem_append.mp h1 with h2 | h3
      · rcases List.mem_append.mp h2 with h4 | h5
        · obtain ⟨hk1, hg⟩ := mem_guard_singleton _ _ _ h4
          rw [hk1]
          exact hg
        · obtain ⟨hk1, hg⟩ := mem_guard_singleton _ _ _ h5
          rw [hk1]
          exact hg
      · obtain ⟨hk1, hg⟩ := mem_guard_singleton _ _ _ h3
        rw [hk1]
        exact hg
    · rw [List.mem_singleton.mp hlast]
      intro hmap
      unfold pyLowerStr at hmap
      exact hstem (List.map_eq_nil_iff.mp hmap)

theorem mem_lookup_isSome (t : Table) (k v : List Char) (h : (k, v) ∈ t) :
    (tblLookup t k).isSome = true := by
  induction t with
  | nil => exact absurd h (List.not_mem_nil _)
  | cons kv rest ih =>
    obtain ⟨k1, v1⟩ := kv
    rcases List.mem_cons.mp h with he | hm
    · rw [Prod.mk.injEq] at he
      unfold tblLookup
      rw [if_pos he.1.symm]
      rfl
    · unfold tblLookup
      by_cases hk : k1 = k
      · rw [if_pos hk]
        rfl
      · rw [if_neg hk]
        exact ih hm

/-! ## Claim theorems -/

/-- C1: the claim states that any underscore-separated piece failing the
two-hex-digit test makes `stem_to_title` yield no value.  The code
instead silently skips invalid pieces and decodes the surviving ones:
on the stem `INCARNATOR_00` the piece `INCARNATOR` fails the test, yet
the function decodes the remaining piece `00` to the one-character NUL
string — contradicting the source's own comment that expects
`INCARNATOR_00.jpg` to be registered by the non-decoded branch. -/
theorem c1_code_eval :
    validPiece "INCARNATOR".toList = false ∧
      stem_to_title "INCARNATOR_00".toList = some ['\x00'] := by
  decide

/-- C2, counterexample: `20.jpg` has an allowed extension, yet
registers zero keys — its stem decodes to `" "`, both keys of the
decoded branch are empty, and the non-decoded fallback never runs. -/
theorem c2_counterexample :
    entryProcessed ⟨"20.jpg".toList, false⟩ = true ∧
      build_title_to_file_map true [⟨"20.jpg".toList, false⟩] = [] := by
  decide

/-- C2, amended: every file with an allowed extension whose stem does
not decode to a whitespace-only title has a non-empty candidate-key
list, and any of its candidate keys not already claimed by an earlier
file ends up mapping to this file. -/
theorem c2_amended_registers (t : Table) (e : DirEntry)
    (hp : entryProcessed e = true) (hw : decodesWhitespaceOnly e = false) :
    entryKeys e ≠ [] ∧
      ∀ k, k ∈ entryKeys e → tblLookup t k = none →
        tblLookup (processEntry t e) k = some e.name := by
  constructor
  · unfold entryKeys
    unfold decodesWhitespaceOnly at hw
    cases hs : stem_to_title (pyStem e.name) with
    | some d =>
      simp only [hs] at hw ⊢
      have hd2 : pyStrip d ≠ [] := by
        intro hh
        simp [hh] at hw
      have hkey : pyLowerStr (pyStrip d) ≠ [] := by
        unfold pyLowerStr
        intro hh
        exact hd2 (List.map_eq_nil_iff.mp hh)
      rw [if_pos hkey]
      simp
    | none =>
      simp only [hs]
      intro hh
      have := congrArg List.length hh
      simp only [List.length_append, List.length_cons, List.length_nil] at this
      omega
  · intro k hk hnone
    rw [processEntry_eq, hp, if_pos rfl]
    rw [registerKeys_lookup_none (entryKeys e) t k e.name hnone, if_pos hk]

/-- Witness for C2 (amended), at the file `a.jpg` and the empty table. -/
theorem c2_amended_witness :
    entryProcessed ⟨"a.jpg".toList, false⟩ = true ∧
      decodesWhitespaceOnly ⟨"a.jpg".toList, false⟩ = false ∧
      entryKeys ⟨"a.jpg".toList, false⟩ ≠ [] ∧
      tblLookup (processEntry [] ⟨"a.jpg".toList, false⟩) "a".toList =
        some "a.jpg".toList := by
  refine ⟨by decide, by decide, ?_, ?_⟩
  · exact (c2_amended_registers [] ⟨"a.jpg".toList, false⟩ (by decide) (by decide)).1
  · exact (c2_amended_registers [] ⟨"a.jpg".toList, false⟩ (by decide) (by decide)).2
      "a".toList (by decide) (by decide)

/-- C3, counterexample: on `"a-b"` the source's `slug` keeps the
hyphen, while the spec's reference definition replaces it by a space
and hence yields `"a_b"`. -/
theorem c3_counterexample : slug "a-b".toList ≠ specSlug "a-b".toList := by
  decide

/-- C3, amended: `slug` equals the spec's reference definition with the
single exception that `'-'` is preserved rather than replaced by a
space (the regex class of the source also exempts the hyphen). -/
theorem c3_slug_spec_amended (s : List Char) : slug s = specSlugKeepHyphen s := rfl

/-- C5: the four strategies of `find_image_for_title` are tried in
order with the first hit winning: an exact-key hit is returned
unconditionally; on an exact miss a slug hit is returned; then a
collapsed-whitespace hit; and only when all three direct lookups miss
does the result come from the fuzzy prefix scan. -/
theorem c5_strategy_order (title : List Char) (t : Table)
    (hne : pyStrip title ≠ []) :
    (∀ p, tblLookup t (exactKey title) = some p →
      find_image_for_title title t = some p) ∧
    (tblLookup t (exactKey title) = none →
      (∀ p, tblLookup t (slugKey title) = some p →
        find_image_for_title title t = some p) ∧
      (tblLookup t (slugKey title) = none →
        (∀ p, tblLookup t (collapsedKey title) = some p →
          find_image_for_title title t = some p) ∧
        (tblLookup t (collapsedKey title) = none →
          find_image_for_title title t = fuzzyScan (slugKey title) t))) := by
  unfold find_image_for_title
  rw [if_neg hne]
  constructor
  · intro p hp
    rw [hp]
  · intro h1
    rw [h1]
    constructor
    · intro p hp
      rw [hp]
    · intro h2
      rw [h2]
      constructor
      · intro p hp
        rw [hp]
      · intro h3
        rw [h3]

/-- Witness for C5, at the title `"a"` and a one-entry table. -/
theorem c5_witness :
    pyStrip "a".toList ≠ [] ∧
      find_image_for_title "a".toList [("a".toList, "a.jpg".toList)] =
        some "a.jpg".toList :=
  ⟨by decide,
    (c5_strategy_order "a".toList [("a".toList, "a.jpg".toList)] (by decide)).1
      "a.jpg".toList (by decide)⟩

/-- C6: the table built by `build_title_to_file_map` maps each key to
the file of the first directory entry (in iteration order) that
registers it; later entries never overwrite it. -/
theorem c6_first_writer_wins (entries : List DirEntry) (k : List Char) :
    tblLookup (build_title_to_file_map true entries) k =
      (entries.find? (fun e => entryProcessed e && decide (k ∈ entryKeys e))).map
        DirEntry.name := by
  have h := foldl_processEntry_lookup entries [] k
  have h2 : optOr (tblLookup ([] : Table) k)
      ((entries.find? (fun e => entryProcessed e && decide (k ∈ entryKeys e))).map
        DirEntry.name) =
      (entries.find? (fun e => entryProcessed e && decide (k ∈ entryKeys e))).map
        DirEntry.name := rfl
  rw [h2] at h
  exact h

/-- C7: a nonexistent or non-directory images path yields the empty
table, and resolving any title against the empty table is `none`,
never an error. -/
theorem c7_missing_dir (entries : List DirEntry) :
    build_title_to_file_map false entries = [] ∧
      ∀ title : List Char, find_image_for_title title [] = none := by
  constructor
  · rfl
  · intro title
    unfold find_image_for_title
    split
    · rfl
    · rfl

/-- C8: the two titles do produce identical compact keys, but with
`INCARNATOR_00.jpg` as the only file, querying `INCARNATOR₀₀` returns
no match: the stem spuriously decodes to the NUL string, so the
compact key `incarnator00` is never registered — contradicting the
source's own comment that this pairing must match. -/
theorem c8_code_eval :
    specCompactKey "INCARNATOR₀₀".toList = specCompactKey "INCARNATOR00".toList ∧
      find_image_for_title "INCARNATOR₀₀".toList
        (build_title_to_file_map true [⟨"INCARNATOR_00.jpg".toList, false⟩]) =
        none := by
  decide

/-- C9: when the title's slug is empty, the fuzzy fallback pass of
`find_image_for_title` never returns a match, for any table. -/
theorem c9_fuzzy_empty_slug (title : List Char) (t : Table)
    (h : slugKey title = []) : fuzzyScan (slugKey title) t = none := by
  rw [h]
  induction t with
  | nil => rfl
  | cons kv rest ih =>
    obtain ⟨k, p⟩ := kv
    simp only [fuzzyScan, ne_eq, not_true_eq_false, false_and, if_false]
    exact ih

/-- Witness for C9, at the punctuation-only title `"!!!"`. -/
theorem c9_witness :
    slugKey "!!!".toList = [] ∧
      fuzzyScan (slugKey "!!!".toList) [("x".toList, "x.jpg".toList)] = none :=
  ⟨by decide,
    c9_fuzzy_empty_slug "!!!".toList [("x".toList, "x.jpg".toList)] (by decide)⟩

/-- C10: every key stored in a table produced by
`build_title_to_file_map` is a non-empty string. -/
theorem c10_keys_nonempty (dirExists : Bool) (entries : List DirEntry)
    (k v : List Char) (h : (k, v) ∈ build_title_to_file_map dirExists entries) :
    k ≠ [] := by
  cases dirExists with
  | false =>
    simp [build_title_to_file_map] at h
  | true =>
    have hs := mem_lookup_isSome _ k v h
    have hl := foldl_processEntry_lookup entries [] k
    have h2 : optOr (tblLookup ([] : Table) k)
        ((entries.find? (fun e => entryProcessed e && decide (k ∈ entryKeys e))).map
          DirEntry.name) =
        (entries.find? (fun e => entryProcessed e && decide (k ∈ entryKeys e))).map
          DirEntry.name := rfl
    rw [h2] at hl
    have hl2 : tblLookup (build_title_to_file_map true entries) k =
        (entries.find? (fun e => entryProcessed e && decide (k ∈ entryKeys e))).map
          DirEntry.name := hl
    rw [hl2] at hs
    cases hf : entries.find? (fun e => entryProcessed e && decide (k ∈ entryKeys e)) with
    | none =>
      rw [hf] at hs
      simp at hs
    | some e =>
      have hpred := List.find?_some hf
      simp only [Bool.and_eq_true, decide_eq_true_eq] at hpred
      exact entryKeys_key_ne_nil e hpred.1 k hpred.2

/-- Witness for C10, at the file `a.jpg` and its key `"a"`. -/
theorem c10_witness :
    (("a".toList, "a.jpg".toList) ∈
        build_title_to_file_map true [⟨"a.jpg".toList, false⟩]) ∧
      "a".toList ≠ ([] : List Char) :=
  ⟨by decide,
    c10_keys_nonempty true [⟨"a.jpg".toList, false⟩] "a".toList "a.jpg".toList
      (by decide)⟩

/-- C4: decoding the forward hex encoding of any non-empty title
recovers exactly the title:
`stem_to_title (title_to_encoded_stem S) = some S`. -/
theorem c4_roundtrip (title : List Char) (h : title ≠ []) :
    stem_to_title (title_to_encoded_stem title) = some title := by
  have henc : title_to_encoded_stem title =
      '_' :: joinUnderscore ((strToUtf8 title).map byteToHex) := by
    unfold title_to_encoded_stem
    rw [if_neg h]
  obtain ⟨hfilter, hmap, hnounder⟩ :=
    hexPieces_spec (strToUtf8 title) (strToUtf8_lt_256 title)
  have hraw := strToUtf8_ne_nil title h
  have hpieces_ne : (strToUtf8 title).map byteToHex ≠ [] := by
    intro hh
    exact hraw (List.map_eq_nil_iff.mp hh)
  rw [henc]
  unfold stem_to_title
  rw [if_neg (show ¬('_' :: joinUnderscore ((strToUtf8 title).map byteToHex) = []) by simp)]
  simp only [List.head?_cons, List.tail_cons]
  rw [if_pos trivial,
    pySplit_joinUnderscore ((strToUtf8 title).map byteToHex) hpieces_ne hnounder,
    hfilter, hmap, if_neg hraw]
  exact utf8Decode_strToUtf8 title

/-- Witness for C4, at the title `"A"`. -/
theorem c4_witness :
    ("A".toList ≠ ([] : List Char)) ∧
      stem_to_title (title_to_encoded_stem "A".toList) = some "A".toList :=
  ⟨by decide, c4_roundtrip "A".toList (by decide)⟩

end ArcaeaImages
